import Mathlib

/-!
Verification of the comment-aggregation and naming-convention core of the
`algorithms-keeper` repository.

The first part embeds `algorithms_keeper/parser/record.py`: the
`ReviewComment` / `PullRequestReviewRecord` data model and its operations
`add_comments`, `add_error`, `fill_labels`, `collect_comments` and the
helper `_lineno_exist`.  Python lists become Lean lists, the Python `set`
of violated rules becomes a duplicate-free insertion list (only membership
is ever observed), and `dataclasses.asdict` becomes an association list in
field-declaration order.

The second part embeds `algorithms_keeper/parser/rules/naming_convention.py`:
the relevant fragment of the `libcst` node model (assignment targets are
either a simple `Name`, a `Tuple` / `List` destructuring node, or some other
expression) together with the two `libcst.matchers.extract` patterns used by
`NamingConventionRule._validate_snake_case_name`, and the visitor methods.
-/

namespace AlgorithmsKeeper

/-- A lint report as produced by a rule run (`fixit`'s `BaseLintRuleReport`):
rule identifier (`code`), human readable `message` and the `line` it refers
to.  Only these three fields are read by `record.py`. -/
structure LintReport where
  code : String
  message : String
  line : Nat
deriving DecidableEq, Repr

/-- `ReviewComment` from `record.py`: body, path, line and diff side.  The
`side` field is `init=False` with default `"RIGHT"` in the source, so every
construction goes through `mkReviewComment`. -/
structure ReviewComment where
  body : String
  path : String
  line : Nat
  side : String
deriving DecidableEq, Repr

/-- Construction of a `ReviewComment`: the dataclass `__init__` takes body,
path and line, and always sets `side := "RIGHT"`. -/
def mkReviewComment (body path : String) (line : Nat) : ReviewComment :=
  { body := body, path := path, line := line, side := "RIGHT" }

namespace Label

/-- Modelled from the spec: the label-name constants live in
`algorithms_keeper/constants.py`, which is not part of the sources at hand;
the spec only requires a static rule-identifier to outward-label-name table.
The three label names are modelled as distinct placeholder strings. -/
def DESCRIPTIVE_NAME : String := "require descriptive names"

/-- Modelled from the spec: see `Label.DESCRIPTIVE_NAME`. -/
def REQUIRE_TEST : String := "require tests"

/-- Modelled from the spec: see `Label.DESCRIPTIVE_NAME`. -/
def TYPE_HINT : String := "require type hints"

end Label

/-- `RULE_TO_LABEL` from `record.py`: mapping of rule to the appropriate
label, kept in source order as an association list (Python dicts preserve
insertion order). -/
def RULE_TO_LABEL : List (String × String) :=
  [("RequireDescriptiveNameRule", Label.DESCRIPTIVE_NAME),
   ("RequireDoctestRule", Label.REQUIRE_TEST),
   ("RequireTypeHintRule", Label.TYPE_HINT)]

/-- `PullRequestReviewRecord` from `record.py`.  The private `_comments`
list is `comments` here and the private `_violated_rules` set is
`violated_rules`, represented as a duplicate-free insertion list (the code
only ever tests membership of it). -/
structure PullRequestReviewRecord where
  labels_to_add : List String
  labels_to_remove : List String
  comments : List ReviewComment
  violated_rules : List String
deriving DecidableEq, Repr

/-- A freshly constructed record: all four fields default to empty. -/
def emptyRecord : PullRequestReviewRecord :=
  { labels_to_add := [], labels_to_remove := [], comments := [],
    violated_rules := [] }

/-- `PullRequestReviewRecord._lineno_exist`: walk the comment list; the
first comment whose `line` and `path` both match gets `"\n\n" ++ body`
appended to its body and the walk stops returning `true`; if none matches,
the list is returned unchanged with `false`. -/
def linenoExist (lineno : Nat) (filepath body : String) :
    List ReviewComment → List ReviewComment × Bool
  | [] => ([], false)
  | c :: cs =>
    if c.line = lineno ∧ c.path = filepath then
      ({ c with body := c.body ++ "\n\n" ++ body } :: cs, true)
    else
      let r := linenoExist lineno filepath body cs
      (c :: r.1, r.2)

/-- One iteration of the `for report in reports` loop of
`PullRequestReviewRecord.add_comments`: record the rule code into the
violated set, then either merge into an existing comment at
(`report.line`, `filepath`) or append a fresh comment. -/
def addComment (filepath : String) (r : PullRequestReviewRecord)
    (report : LintReport) : PullRequestReviewRecord :=
  let violated :=
    if report.code ∈ r.violated_rules then r.violated_rules
    else r.violated_rules ++ [report.code]
  let m := linenoExist report.line filepath report.message r.comments
  if m.2 then
    { r with violated_rules := violated, comments := m.1 }
  else
    { r with violated_rules := violated,
             comments := m.1 ++ [mkReviewComment report.message filepath report.line] }

/-- `PullRequestReviewRecord.add_comments`: fold the loop body over the
reports in iteration order. -/
def add_comments (r : PullRequestReviewRecord) (reports : List LintReport)
    (filepath : String) : PullRequestReviewRecord :=
  reports.foldl (addComment filepath) r

/-- The templated body built by `PullRequestReviewRecord.add_error`. -/
def errorBody (message filepath : String) : String :=
  "An error occured while parsing the file: `" ++ filepath ++ "`\n```python\n"
    ++ message ++ "\n```"

/-- `PullRequestReviewRecord.add_error`: default a missing line number to 1,
build the templated body, and append a fresh comment to the list. -/
def add_error (r : PullRequestReviewRecord) (message filepath : String)
    (lineno : Option Nat) : PullRequestReviewRecord :=
  let l := lineno.getD 1
  { r with comments := r.comments ++ [mkReviewComment (errorBody message filepath) filepath l] }

/-- One iteration of the `for rule, label in RULE_TO_LABEL.items()` loop of
`PullRequestReviewRecord.fill_labels`, acting on the pair
(`labels_to_add`, `labels_to_remove`). -/
def fillStep (violated current : List String)
    (s : List String × List String) (e : String × String) :
    List String × List String :=
  if e.1 ∈ violated then
    if e.2 ∉ current ∧ e.2 ∉ s.1 then (s.1 ++ [e.2], s.2) else s
  else
    if e.2 ∈ current ∧ e.2 ∉ s.2 then (s.1, s.2 ++ [e.2]) else s

/-- `PullRequestReviewRecord.fill_labels`. -/
def fill_labels (r : PullRequestReviewRecord) (current_labels : List String) :
    PullRequestReviewRecord :=
  let s := RULE_TO_LABEL.foldl (fillStep r.violated_rules current_labels)
    (r.labels_to_add, r.labels_to_remove)
  { r with labels_to_add := s.1, labels_to_remove := s.2 }

/-- Values of the serialized comment dictionaries: strings and integers. -/
inductive JValue where
  | str (s : String)
  | int (n : Nat)
deriving DecidableEq, Repr

/-- `dataclasses.asdict` on a `ReviewComment`: an association list with the
four fields in declaration order. -/
def asdict (c : ReviewComment) : List (String × JValue) :=
  [("body", JValue.str c.body), ("path", JValue.str c.path),
   ("line", JValue.int c.line), ("side", JValue.str c.side)]

/-- `PullRequestReviewRecord.collect_comments`. -/
def collect_comments (r : PullRequestReviewRecord) : List (List (String × JValue)) :=
  r.comments.map asdict

/-! ### Embedding of `naming_convention.py` -/

/-- `INVALID_CAMEL_CASE_NAME.format(nodename=nodename)`: the class-naming
message template with the offending name substituted verbatim. -/
def INVALID_CAMEL_CASE_NAME (nodename : String) : String :=
  "Class names should follow the [`CamelCase`]"
    ++ "(https://en.wikipedia.org/wiki/Camel_case) naming convention. "
    ++ "Please update the name of the class `" ++ nodename ++ "` accordingly. "

/-- `INVALID_SNAKE_CASE_NAME.format(nodetype=nodetype, nodename=nodename)`:
the identifier-naming message template with role and name substituted
verbatim. -/
def INVALID_SNAKE_CASE_NAME (nodetype nodename : String) : String :=
  "Variable and function names should follow the [`snake_case`]"
    ++ "(https://en.wikipedia.org/wiki/Snake_case) naming convention. "
    ++ "Please update the name of the " ++ nodetype ++ " `" ++ nodename
    ++ "` accordingly. "

/-- `_any_uppercase_letter` from `naming_convention.py`: whether any
character of the name is an uppercase letter.  (The embedding is over ASCII
identifiers; `Char.isUpper` agrees with Python's `str.isupper` on ASCII.) -/
def anyUppercaseLetter (name : String) : Bool :=
  name.data.any (fun letter => letter.isUpper)

/-- The relevant fragment of the `libcst` expression model for assignment /
loop / walrus targets: a target is either a simple `Name` carrying its
string value, a `Tuple` or `List` destructuring node carrying element
targets, or some other expression (attribute, subscript, ...). -/
inductive TargetExpr where
  | name (value : String)
  | tupleTarget (elements : List TargetExpr)
  | listTarget (elements : List TargetExpr)
  | otherExpr

/-- The union of node kinds accepted by
`NamingConventionRule._validate_snake_case_name`.  `FunctionDef` and
`Param` carry their `name` field (always a `Name` node, hence a string
here); the other four carry their `target` field, an arbitrary
`TargetExpr`. -/
inductive SnakeNode where
  | functionDef (name : String)
  | param (name : String)
  | annAssign (target : TargetExpr)
  | assignTarget (target : TargetExpr)
  | forStmt (target : TargetExpr)
  | namedExpr (target : TargetExpr)

/-- First `m.extract` pattern:
`m.TypeOf(m.FunctionDef, m.Param)(name=m.Name(value=m.SaveMatchedNode(m.MatchIfTrue(_any_uppercase_letter), "nodename")))`.
Succeeds, capturing the name, exactly when the node is a `FunctionDef` or a
`Param` whose name contains an uppercase letter. -/
def matchDefOrParamName : SnakeNode → Option String
  | SnakeNode.functionDef n => if anyUppercaseLetter n then some n else none
  | SnakeNode.param n => if anyUppercaseLetter n then some n else none
  | _ => none

/-- Second `m.extract` pattern:
`m.TypeOf(m.AnnAssign, m.AssignTarget, m.For, m.NamedExpr)(target=m.Name(value=m.SaveMatchedNode(m.MatchIfTrue(_any_uppercase_letter), "nodename")))`.
The field constraint `target=m.Name(...)` only matches when the target is a
simple `Name` node; a `Tuple` / `List` destructuring target is a structural
mismatch and the pattern fails. -/
def matchTargetName : SnakeNode → Option String
  | SnakeNode.annAssign t | SnakeNode.assignTarget t
  | SnakeNode.forStmt t | SnakeNode.namedExpr t =>
    match t with
    | TargetExpr.name v => if anyUppercaseLetter v then some v else none
    | _ => none
  | _ => none

/-- `NamingConventionRule._validate_snake_case_name`: try the first pattern,
`or` the second (Python's `or` on an optional dict), and report the
formatted message when a capture was extracted.  The returned option is the
report emitted for the node (`none` = no report). -/
def validate_snake_case_name (node : SnakeNode) (nodetype : String) :
    Option String :=
  let extracted :=
    match matchDefOrParamName node with
    | some v => some v
    | none => matchTargetName node
  match extracted with
  | some nodename => some (INVALID_SNAKE_CASE_NAME nodetype nodename)
  | none => none

/-- `NamingConventionRule.visit_ClassDef`: report when the class name starts
with a lowercase letter or contains an underscore.  (Python indexes
`nodename[0]`; class names are nonempty identifiers, so the empty case is
unreachable and modelled as no report.) -/
def visit_ClassDef (name : String) : Option String :=
  match name.data with
  | [] => none
  | c :: _ =>
    if c.isLower || name.data.contains '_' then
      some (INVALID_CAMEL_CASE_NAME name)
    else none

/-- `NamingConventionRule.visit_AnnAssign`: the assignment target is only
validated when the node has a value (`node.value is not None`). -/
def visit_AnnAssign (target : TargetExpr) (hasValue : Bool) : Option String :=
  if hasValue then validate_snake_case_name (SnakeNode.annAssign target) "variable"
  else none

/-- `NamingConventionRule.visit_AssignTarget`. -/
def visit_AssignTarget (target : TargetExpr) : Option String :=
  validate_snake_case_name (SnakeNode.assignTarget target) "variable"

/-- `NamingConventionRule.visit_For`. -/
def visit_For (target : TargetExpr) : Option String :=
  validate_snake_case_name (SnakeNode.forStmt target) "variable"

/-- `NamingConventionRule.visit_FunctionDef`. -/
def visit_FunctionDef (name : String) : Option String :=
  validate_snake_case_name (SnakeNode.functionDef name) "function"

/-- `NamingConventionRule.visit_NamedExpr`. -/
def visit_NamedExpr (target : TargetExpr) : Option String :=
  validate_snake_case_name (SnakeNode.namedExpr target) "variable"

/-- `NamingConventionRule.visit_Param`. -/
def visit_Param (name : String) : Option String :=
  validate_snake_case_name (SnakeNode.param name) "parameter"

/-! ### Operation traces over a record

The claims quantify over sequences of mutating calls on one record; these
definitions give those sequences a concrete shape.  `RecordOp` is one call
(`add_comments` with its report collection and file path, or `add_error`),
and `runOps` replays a sequence on a fresh record. -/

/-- One mutating call on a `PullRequestReviewRecord`. -/
inductive RecordOp where
  | reportsOp (reports : List LintReport) (filepath : String)
  | errorOp (message : String) (filepath : String) (lineno : Option Nat)

/-- Apply one call to a record. -/
def applyOp (r : PullRequestReviewRecord) : RecordOp → PullRequestReviewRecord
  | RecordOp.reportsOp reports filepath => add_comments r reports filepath
  | RecordOp.errorOp message filepath lineno => add_error r message filepath lineno

/-- Replay a sequence of calls on a fresh record. -/
def runOps (ops : List RecordOp) : PullRequestReviewRecord :=
  ops.foldl applyOp emptyRecord

/-- The (path, line) locations an operation delivers comments to, in
delivery order. -/
def opLocs : RecordOp → List (String × Nat)
  | RecordOp.reportsOp reports filepath => reports.map (fun rep => (filepath, rep.line))
  | RecordOp.errorOp _ filepath lineno => [(filepath, lineno.getD 1)]

/-- All locations delivered by a sequence of calls, in order. -/
def deliveredLocs : List RecordOp → List (String × Nat)
  | [] => []
  | op :: ops => opLocs op ++ deliveredLocs ops

/-- The merge identity of a comment: its (path, line) pair. -/
def locKey (c : ReviewComment) : String × Nat :=
  (c.path, c.line)

/-- A sequence of `add_comments` calls, each a report collection with its
file path, replayed on a fresh record. -/
def runComments (calls : List (List LintReport × String)) :
    PullRequestReviewRecord :=
  calls.foldl (fun r c => add_comments r c.1 c.2) emptyRecord

/-- The individual (filepath, report) deliveries of a sequence of
`add_comments` calls, flattened in call order. -/
def flattenCalls : List (List LintReport × String) → List (String × LintReport)
  | [] => []
  | c :: cs => c.1.map (fun rep => (c.2, rep)) ++ flattenCalls cs

/-- The messages delivered for location (`p`, `l`) by a list of deliveries,
in delivery order. -/
def msgsFor (p : String) (l : Nat) : List (String × LintReport) → List String
  | [] => []
  | d :: ds =>
    (if d.1 = p ∧ d.2.line = l then [d.2.message] else []) ++ msgsFor p l ds

/-- Concatenation of messages separated by a blank line: the claim-side
reading of "each pair of consecutive messages separated by a blank line". -/
def blankLineJoin : List String → String
  | [] => ""
  | [m] => m
  | m :: ms => m ++ "\n\n" ++ blankLineJoin ms

/-- Keep the first occurrence of every element, dropping later duplicates:
the order of first-seen locations. -/
def firstSeen {α : Type} [DecidableEq α] : List α → List α
  | [] => []
  | x :: xs => x :: (firstSeen xs).filter (fun y => decide (y ≠ x))

/-- The body update a merge at (`lineno`, `filepath`) performs on a single
comment: used to characterise `linenoExist` on duplicate-free records. -/
def mergeUpdate (lineno : Nat) (filepath body : String) (c : ReviewComment) :
    ReviewComment :=
  if c.line = lineno ∧ c.path = filepath then
    { c with body := c.body ++ "\n\n" ++ body }
  else c

/-- Invariant tying a record's comments to the history of (filepath, report)
deliveries that produced it: locations are duplicate-free, every comment
body is the blank-line-joined list of the messages delivered for its
location, and every location with a delivered message owns a comment. -/
def commentsInvariant (hist : List (String × LintReport))
    (r : PullRequestReviewRecord) : Prop :=
  (r.comments.map locKey).Nodup
  ∧ (∀ c ∈ r.comments, msgsFor c.path c.line hist ≠ []
      ∧ c.body = blankLineJoin (msgsFor c.path c.line hist))
  ∧ (∀ p l, msgsFor p l hist ≠ [] → ∃ c ∈ r.comments, c.path = p ∧ c.line = l)

/-! ## Theorems -/

/-! ### Lemmas about `fillStep` / `fill_labels` -/

theorem fill_labels_def (r : PullRequestReviewRecord) (current_labels : List String) :
    fill_labels r current_labels = { r with
      labels_to_add := (RULE_TO_LABEL.foldl (fillStep r.violated_rules current_labels)
        (r.labels_to_add, r.labels_to_remove)).1,
      labels_to_remove := (RULE_TO_LABEL.foldl (fillStep r.violated_rules current_labels)
        (r.labels_to_add, r.labels_to_remove)).2 } := rfl

theorem fillStep_mem_add {violated current : List String}
    {s : List String × List String} {e : String × String} {x : String}
    (hx : x ∈ s.1) : x ∈ (fillStep violated current s e).1 := by
  unfold fillStep
  split_ifs <;> simp [hx]

theorem fillStep_mem_remove {violated current : List String}
    {s : List String × List String} {e : String × String} {x : String}
    (hx : x ∈ s.2) : x ∈ (fillStep violated current s e).2 := by
  unfold fillStep
  split_ifs <;> simp [hx]

theorem fillFold_mem_add (violated current : List String) :
    ∀ (m : List (String × String)) (s : List String × List String) (x : String),
      x ∈ s.1 → x ∈ (m.foldl (fillStep violated current) s).1 := by
  intro m
  induction m with
  | nil => intro s x hx; exact hx
  | cons e m ih => intro s x hx; exact ih _ x (fillStep_mem_add hx)

theorem fillFold_mem_remove (violated current : List String) :
    ∀ (m : List (String × String)) (s : List String × List String) (x : String),
      x ∈ s.2 → x ∈ (m.foldl (fillStep violated current) s).2 := by
  intro m
  induction m with
  | nil => intro s x hx; exact hx
  | cons e m ih => intro s x hx; exact ih _ x (fillStep_mem_remove hx)

theorem fillFold_post (violated current : List String) :
    ∀ (m : List (String × String)) (s : List String × List String),
      ∀ e ∈ m,
      (e.1 ∈ violated → e.2 ∈ current ∨ e.2 ∈ (m.foldl (fillStep violated current) s).1)
      ∧ (e.1 ∉ violated → e.2 ∉ current ∨ e.2 ∈ (m.foldl (fillStep violated current) s).2) := by
  intro m
  induction m with
  | nil => intro s e he; exact absurd he (List.not_mem_nil e)
  | cons a m ih =>
    intro s e he
    rcases List.mem_cons.mp he with rfl | he'
    · constructor
      · intro hv
        by_cases hc : e.2 ∈ current
        · exact Or.inl hc
        · refine Or.inr ?_
          have hmem : e.2 ∈ (fillStep violated current s e).1 := by
            unfold fillStep
            rw [if_pos hv]
            by_cases ha : e.2 ∈ s.1
            · split_ifs <;> simp [ha]
            · rw [if_pos ⟨hc, ha⟩]; simp
          exact fillFold_mem_add violated current m _ _ hmem
      · intro hv
        by_cases hc : e.2 ∈ current
        · refine Or.inr ?_
          have hmem : e.2 ∈ (fillStep violated current s e).2 := by
            unfold fillStep
            rw [if_neg hv]
            by_cases hr : e.2 ∈ s.2
            · split_ifs <;> simp [hr]
            · rw [if_pos ⟨hc, hr⟩]; simp
          exact fillFold_mem_remove violated current m _ _ hmem
        · exact Or.inl hc
    · exact ih _ e he'

theorem fillFold_noop (violated current : List String) :
    ∀ (m : List (String × String)) (s : List String × List String),
      (∀ e ∈ m, (e.1 ∈ violated → e.2 ∈ current ∨ e.2 ∈ s.1)
        ∧ (e.1 ∉ violated → e.2 ∉ current ∨ e.2 ∈ s.2)) →
      m.foldl (fillStep violated current) s = s := by
  intro m
  induction m with
  | nil => intro s _; rfl
  | cons a m ih =>
    intro s h
    have ha := h a (List.mem_cons_self a m)
    have hstep : fillStep violated current s a = s := by
      unfold fillStep
      by_cases hv : a.1 ∈ violated
      · rw [if_pos hv]
        have hcond : ¬(a.2 ∉ current ∧ a.2 ∉ s.1) := by
          rcases ha.1 hv with hc | hs
          · exact fun hcontra => hcontra.1 hc
          · exact fun hcontra => hcontra.2 hs
        rw [if_neg hcond]
      · rw [if_neg hv]
        have hcond : ¬(a.2 ∈ current ∧ a.2 ∉ s.2) := by
          rcases ha.2 hv with hc | hs
          · exact fun hcontra => hc hcontra.1
          · exact fun hcontra => hcontra.2 hs
        rw [if_neg hcond]
    calc (a :: m).foldl (fillStep violated current) s
        = m.foldl (fillStep violated current) (fillStep violated current s a) := rfl
      _ = m.foldl (fillStep violated current) s := by rw [hstep]
      _ = s := ih s (fun e he => h e (List.mem_cons_of_mem a he))

/-- Claim C4: `fill_labels` is idempotent — with the violated-rule set and
the current labels unchanged, a second call leaves `labels_to_add` and
`labels_to_remove` exactly as the first call left them (in particular no
duplicate entries are introduced). -/
theorem fill_labels_idempotent (r : PullRequestReviewRecord)
    (current_labels : List String) :
    fill_labels (fill_labels r current_labels) current_labels
      = fill_labels r current_labels := by
  have hnoop : RULE_TO_LABEL.foldl (fillStep r.violated_rules current_labels)
      (RULE_TO_LABEL.foldl (fillStep r.violated_rules current_labels)
        (r.labels_to_add, r.labels_to_remove))
      = RULE_TO_LABEL.foldl (fillStep r.violated_rules current_labels)
        (r.labels_to_add, r.labels_to_remove) := by
    apply fillFold_noop
    intro e he
    exact fillFold_post r.violated_rules current_labels RULE_TO_LABEL
      (r.labels_to_add, r.labels_to_remove) e he
  rw [fill_labels_def r, fill_labels_def]
  dsimp only
  rw [hnoop]

theorem fillStep_congr_violated {v₁ v₂ current : List String}
    {e : String × String} (h : e.1 ∈ v₁ ↔ e.1 ∈ v₂)
    (s : List String × List String) :
    fillStep v₁ current s e = fillStep v₂ current s e := by
  unfold fillStep
  by_cases hv : e.1 ∈ v₁
  · rw [if_pos hv, if_pos (h.mp hv)]
  · rw [if_neg hv, if_neg (fun hx => hv (h.mpr hx))]

theorem fillFold_congr_violated {v₁ v₂ current : List String} :
    ∀ (m : List (String × String)), (∀ e ∈ m, (e.1 ∈ v₁ ↔ e.1 ∈ v₂)) →
      ∀ s, m.foldl (fillStep v₁ current) s = m.foldl (fillStep v₂ current) s := by
  intro m
  induction m with
  | nil => intro _ s; rfl
  | cons a m ih =>
    intro h s
    calc (a :: m).foldl (fillStep v₁ current) s
        = m.foldl (fillStep v₁ current) (fillStep v₁ current s a) := rfl
      _ = m.foldl (fillStep v₂ current) (fillStep v₁ current s a) :=
          ih (fun e he => h e (List.mem_cons_of_mem a he)) _
      _ = m.foldl (fillStep v₂ current) (fillStep v₂ current s a) := by
          rw [fillStep_congr_violated (h a (List.mem_cons_self a m))]

/-- Claim C6: a rule identifier in the violated set that is not a key of
`RULE_TO_LABEL` is silently ignored by `fill_labels` — the computed
`labels_to_add` and `labels_to_remove` are exactly those computed as if the
identifier were absent from the set, and no error occurs (the embedding is
total). -/
theorem fill_labels_unknown_rule_ignored (r : PullRequestReviewRecord)
    (current_labels : List String) (x : String)
    (_hmem : x ∈ r.violated_rules) (hkey : x ∉ RULE_TO_LABEL.map Prod.fst) :
    (fill_labels r current_labels).labels_to_add
      = (fill_labels { r with violated_rules :=
          r.violated_rules.filter (fun y => decide (y ≠ x)) } current_labels).labels_to_add
    ∧ (fill_labels r current_labels).labels_to_remove
      = (fill_labels { r with violated_rules :=
          r.violated_rules.filter (fun y => decide (y ≠ x)) } current_labels).labels_to_remove := by
  have hfold : RULE_TO_LABEL.foldl (fillStep r.violated_rules current_labels)
      (r.labels_to_add, r.labels_to_remove)
      = RULE_TO_LABEL.foldl
        (fillStep (r.violated_rules.filter (fun y => decide (y ≠ x))) current_labels)
        (r.labels_to_add, r.labels_to_remove) := by
    apply fillFold_congr_violated
    intro e he
    have hne : e.1 ≠ x := by
      intro hEq
      exact hkey (hEq ▸ List.mem_map_of_mem Prod.fst he)
    simp [List.mem_filter, hne]
  rw [fill_labels_def r, fill_labels_def]
  dsimp only
  rw [hfold]
  exact ⟨rfl, rfl⟩

/-- Claim C6, witness: concrete instance with the unknown identifier
`"UnknownRule"` present in the violated set. -/
theorem fill_labels_unknown_rule_ignored_witness :
    ("UnknownRule" ∈ ({ emptyRecord with
        violated_rules := ["UnknownRule", "RequireDoctestRule"] } :
          PullRequestReviewRecord).violated_rules)
    ∧ ¬("UnknownRule" ∈ RULE_TO_LABEL.map Prod.fst)
    ∧ ((fill_labels { emptyRecord with
          violated_rules := ["UnknownRule", "RequireDoctestRule"] } []).labels_to_add
        = (fill_labels { { emptyRecord with
            violated_rules := ["UnknownRule", "RequireDoctestRule"] } with
            violated_rules := (["UnknownRule", "RequireDoctestRule"] :
              List String).filter (fun y => decide (y ≠ "UnknownRule")) } []).labels_to_add
      ∧ (fill_labels { emptyRecord with
          violated_rules := ["UnknownRule", "RequireDoctestRule"] } []).labels_to_remove
        = (fill_labels { { emptyRecord with
            violated_rules := ["UnknownRule", "RequireDoctestRule"] } with
            violated_rules := (["UnknownRule", "RequireDoctestRule"] :
              List String).filter (fun y => decide (y ≠ "UnknownRule")) } []).labels_to_remove) :=
  ⟨by decide, by decide,
    fill_labels_unknown_rule_ignored
      { emptyRecord with violated_rules := ["UnknownRule", "RequireDoctestRule"] }
      [] "UnknownRule" (by decide) (by decide)⟩

theorem fillFold_inv (v current : List String) :
    ∀ (l : List (String × String)), (∀ e ∈ l, e ∈ RULE_TO_LABEL) →
    ∀ (s : List String × List String),
      s.1.Nodup → s.2.Nodup →
      (∀ x ∈ s.1, ∃ e ∈ RULE_TO_LABEL, e.2 = x ∧ e.1 ∈ v) →
      (∀ x ∈ s.2, ∃ e ∈ RULE_TO_LABEL, e.2 = x ∧ e.1 ∉ v) →
      (l.foldl (fillStep v current) s).1.Nodup
      ∧ (l.foldl (fillStep v current) s).2.Nodup
      ∧ (∀ x ∈ (l.foldl (fillStep v current) s).1,
          ∃ e ∈ RULE_TO_LABEL, e.2 = x ∧ e.1 ∈ v)
      ∧ (∀ x ∈ (l.foldl (fillStep v current) s).2,
          ∃ e ∈ RULE_TO_LABEL, e.2 = x ∧ e.1 ∉ v) := by
  intro l
  induction l with
  | nil => intro _ s h1 h2 h3 h4; exact ⟨h1, h2, h3, h4⟩
  | cons a l ih =>
    intro hsub s h1 h2 h3 h4
    have ha : a ∈ RULE_TO_LABEL := hsub a (List.mem_cons_self a l)
    have hsub' : ∀ e ∈ l, e ∈ RULE_TO_LABEL :=
      fun e he => hsub e (List.mem_cons_of_mem a he)
    have hstep : (fillStep v current s a).1.Nodup
        ∧ (fillStep v current s a).2.Nodup
        ∧ (∀ x ∈ (fillStep v current s a).1, ∃ e ∈ RULE_TO_LABEL, e.2 = x ∧ e.1 ∈ v)
        ∧ (∀ x ∈ (fillStep v current s a).2, ∃ e ∈ RULE_TO_LABEL, e.2 = x ∧ e.1 ∉ v) := by
      unfold fillStep
      by_cases hv : a.1 ∈ v
      · rw [if_pos hv]
        by_cases hc : a.2 ∉ current ∧ a.2 ∉ s.1
        · rw [if_pos hc]
          refine ⟨?_, h2, ?_, h4⟩
          · simpa [List.nodup_append] using ⟨h1, hc.2⟩
          · intro x hx
            rcases List.mem_append.mp hx with hx' | hx'
            · exact h3 x hx'
            · rcases List.mem_singleton.mp hx' with rfl
              exact ⟨a, ha, rfl, hv⟩
        · rw [if_neg hc]; exact ⟨h1, h2, h3, h4⟩
      · rw [if_neg hv]
        by_cases hc : a.2 ∈ current ∧ a.2 ∉ s.2
        · rw [if_pos hc]
          refine ⟨h1, ?_, h3, ?_⟩
          · simpa [List.nodup_append] using ⟨h2, hc.2⟩
          · intro x hx
            rcases List.mem_append.mp hx with hx' | hx'
            · exact h4 x hx'
            · rcases List.mem_singleton.mp hx' with rfl
              exact ⟨a, ha, rfl, hv⟩
        · rw [if_neg hc]; exact ⟨h1, h2, h3, h4⟩
    exact ih hsub' (fillStep v current s a) hstep.1 hstep.2.1 hstep.2.2.1 hstep.2.2.2

theorem fill_labels_fold_inv :
    ∀ (curs : List (List String)) (r : PullRequestReviewRecord),
      r.labels_to_add.Nodup → r.labels_to_remove.Nodup →
      (∀ x ∈ r.labels_to_add, ∃ e ∈ RULE_TO_LABEL, e.2 = x ∧ e.1 ∈ r.violated_rules) →
      (∀ x ∈ r.labels_to_remove, ∃ e ∈ RULE_TO_LABEL, e.2 = x ∧ e.1 ∉ r.violated_rules) →
      (curs.foldl fill_labels r).violated_rules = r.violated_rules
      ∧ (curs.foldl fill_labels r).labels_to_add.Nodup
      ∧ (curs.foldl fill_labels r).labels_to_remove.Nodup
      ∧ (∀ x ∈ (curs.foldl fill_labels r).labels_to_add,
          ∃ e ∈ RULE_TO_LABEL, e.2 = x ∧ e.1 ∈ r.violated_rules)
      ∧ (∀ x ∈ (curs.foldl fill_labels r).labels_to_remove,
          ∃ e ∈ RULE_TO_LABEL, e.2 = x ∧ e.1 ∉ r.violated_rules) := by
  intro curs
  induction curs with
  | nil => intro r h1 h2 h3 h4; exact ⟨rfl, h1, h2, h3, h4⟩
  | cons cur curs ih =>
    intro r h1 h2 h3 h4
    have hs := fillFold_inv r.violated_rules cur RULE_TO_LABEL (fun e he => he)
      (r.labels_to_add, r.labels_to_remove) h1 h2 h3 h4
    have hrec := ih (fill_labels r cur) hs.1 hs.2.1 hs.2.2.1 hs.2.2.2
    exact hrec

/-- Claim C5: after any sequence of `fill_labels` calls on a record whose
label lists started empty, `labels_to_add` and `labels_to_remove` are
disjoint and each contains every label name at most once. -/
theorem fill_labels_disjoint_nodup (violated : List String)
    (comments : List ReviewComment) (curs : List (List String)) :
    (∀ x, x ∈ (curs.foldl fill_labels
        { labels_to_add := [], labels_to_remove := [],
          comments := comments, violated_rules := violated }).labels_to_add →
      x ∉ (curs.foldl fill_labels
        { labels_to_add := [], labels_to_remove := [],
          comments := comments, violated_rules := violated }).labels_to_remove)
    ∧ (curs.foldl fill_labels
        { labels_to_add := [], labels_to_remove := [],
          comments := comments, violated_rules := violated }).labels_to_add.Nodup
    ∧ (curs.foldl fill_labels
        { labels_to_add := [], labels_to_remove := [],
          comments := comments, violated_rules := violated }).labels_to_remove.Nodup := by
  have hinv := fill_labels_fold_inv curs
    { labels_to_add := [], labels_to_remove := [],
      comments := comments, violated_rules := violated }
    List.nodup_nil List.nodup_nil (by intro x hx; cases hx) (by intro x hx; cases hx)
  refine ⟨?_, hinv.2.1, hinv.2.2.1⟩
  intro x hadd hrem
  obtain ⟨e₁, he₁, hx₁, hv₁⟩ := hinv.2.2.2.1 x hadd
  obtain ⟨e₂, he₂, hx₂, hv₂⟩ := hinv.2.2.2.2 x hrem
  have hlabel : e₁.2 = e₂.2 := hx₁.trans hx₂.symm
  simp only [RULE_TO_LABEL, List.mem_cons, List.mem_singleton,
    List.not_mem_nil, or_false] at he₁ he₂
  rcases he₁ with rfl | rfl | rfl <;> rcases he₂ with rfl | rfl | rfl <;>
    simp_all [Label.DESCRIPTIVE_NAME, Label.REQUIRE_TEST, Label.TYPE_HINT] <;>
    exact absurd (hx₁.trans hx₂.symm) (by decide)

theorem isUpper_isLower_exclusive (c : Char) :
    ¬(c.isUpper = true ∧ c.isLower = true) := by
  rintro ⟨h1, h2⟩
  simp only [Char.isUpper, Bool.and_eq_true, decide_eq_true_eq] at h1
  simp only [Char.isLower, Bool.and_eq_true, decide_eq_true_eq] at h2
  exact absurd (UInt32.le_trans h2.1 h1.2) (by decide)

/-- Claim C8: for a class name that is an ASCII identifier (first character
a letter or an underscore), `visit_ClassDef` reports exactly one violation,
whose message contains the offending name verbatim, if and only if the name
does not start with an uppercase letter or contains an underscore; otherwise
it reports nothing. -/
theorem visit_ClassDef_iff (c : Char) (rest : List Char)
    (hc : c.isAlpha = true ∨ c = '_') :
    visit_ClassDef (String.mk (c :: rest))
      = if ¬ c.isUpper = true ∨ (c :: rest).contains '_' = true
        then some (INVALID_CAMEL_CASE_NAME (String.mk (c :: rest)))
        else none := by
  show (if c.isLower || (c :: rest).contains '_' then
      some (INVALID_CAMEL_CASE_NAME (String.mk (c :: rest))) else none) = _
  have hcond : (c.isLower || (c :: rest).contains '_') = true
      ↔ (¬ c.isUpper = true ∨ (c :: rest).contains '_' = true) := by
    constructor
    · intro h
      rw [Bool.or_eq_true] at h
      rcases h with hl | hcont
      · exact Or.inl (fun hu => isUpper_isLower_exclusive c ⟨hu, hl⟩)
      · exact Or.inr hcont
    · intro h
      rw [Bool.or_eq_true]
      rcases h with hnu | hcont
      · rcases hc with ha | rfl
        · have ha' : c.isUpper = true ∨ c.isLower = true := by
            rw [← Bool.or_eq_true]
            simpa [Char.isAlpha] using ha
          rcases ha' with hu | hl
          · exact absurd hu hnu
          · exact Or.inl hl
        · exact Or.inr (by simp [List.contains_cons])
      · exact Or.inr hcont
  by_cases h : ¬ c.isUpper = true ∨ (c :: rest).contains '_' = true
  · rw [if_pos (hcond.mpr h), if_pos h]
  · rw [if_neg (fun hb => h (hcond.mp hb)), if_neg h]

/-- Claim C8, witness: the class name `fooBar` starts with a lowercase
letter, so a violation containing the name is reported. -/
theorem visit_ClassDef_iff_witness :
    ('f'.isAlpha = true ∨ 'f' = '_')
    ∧ visit_ClassDef (String.mk ('f' :: "ooBar".data))
      = (if ¬ 'f'.isUpper = true ∨ ('f' :: "ooBar".data).contains '_' = true
        then some (INVALID_CAMEL_CASE_NAME (String.mk ('f' :: "ooBar".data)))
        else none) :=
  ⟨Or.inl (by decide), visit_ClassDef_iff 'f' "ooBar".data (Or.inl (by decide))⟩

/-- Claim C10: for every annotated-assignment node whose value is absent (a
bare annotation such as `Var: int`), the naming rule reports no violation,
whatever the annotated target is — in particular even when the annotated
name contains uppercase letters or underscores. -/
theorem visit_AnnAssign_no_value_silent :
    ∀ target : TargetExpr, visit_AnnAssign target false = none := by
  intro target
  simp [visit_AnnAssign]

/-- Claim C9, counterexample: the tuple-destructuring assignment
`a, B = ...` delivers an `AssignTarget` whose target is a `Tuple` node; the
bound name `B` contains an uppercase letter, yet the rule reports nothing,
because the pattern `target=m.Name(...)` fails on a `Tuple` node. -/
theorem visit_AssignTarget_tuple_unreported :
    visit_AssignTarget
        (TargetExpr.tupleTarget [TargetExpr.name "a", TargetExpr.name "B"]) = none
    ∧ anyUppercaseLetter "B" = true := by
  exact ⟨rfl, by decide⟩

/-- Claim C9, amended: for function definitions and parameters, and for
assignment / loop / annotated-assignment (with value) / named-expression
targets that are simple `Name` nodes — which covers every target of a
multi-target assignment `a = B = ...` — a bound name containing at least
one uppercase letter yields exactly one violation whose message names the
identifier and its syntactic role; targets that are tuple / sequence
destructuring nodes are never examined and yield no report. -/
theorem snake_case_name_reports :
    (∀ n : String, visit_FunctionDef n =
      (if anyUppercaseLetter n then some (INVALID_SNAKE_CASE_NAME "function" n) else none))
    ∧ (∀ n : String, visit_Param n =
      (if anyUppercaseLetter n then some (INVALID_SNAKE_CASE_NAME "parameter" n) else none))
    ∧ (∀ v : String, visit_AssignTarget (TargetExpr.name v) =
      (if anyUppercaseLetter v then some (INVALID_SNAKE_CASE_NAME "variable" v) else none))
    ∧ (∀ v : String, visit_For (TargetExpr.name v) =
      (if anyUppercaseLetter v then some (INVALID_SNAKE_CASE_NAME "variable" v) else none))
    ∧ (∀ v : String, visit_NamedExpr (TargetExpr.name v) =
      (if anyUppercaseLetter v then some (INVALID_SNAKE_CASE_NAME "variable" v) else none))
    ∧ (∀ v : String, visit_AnnAssign (TargetExpr.name v) true =
      (if anyUppercaseLetter v then some (INVALID_SNAKE_CASE_NAME "variable" v) else none))
    ∧ (∀ elems : List TargetExpr,
        visit_AssignTarget (TargetExpr.tupleTarget elems) = none
        ∧ visit_AssignTarget (TargetExpr.listTarget elems) = none
        ∧ visit_For (TargetExpr.tupleTarget elems) = none
        ∧ visit_For (TargetExpr.listTarget elems) = none
        ∧ visit_NamedExpr (TargetExpr.tupleTarget elems) = none
        ∧ visit_AnnAssign (TargetExpr.tupleTarget elems) true = none) := by
  refine ⟨?_, ?_, ?_, ?_, ?_, ?_, ?_⟩
  · intro n
    by_cases h : anyUppercaseLetter n <;>
      simp [visit_FunctionDef, validate_snake_case_name, matchDefOrParamName,
        matchTargetName, h]
  · intro n
    by_cases h : anyUppercaseLetter n <;>
      simp [visit_Param, validate_snake_case_name, matchDefOrParamName,
        matchTargetName, h]
  · intro v
    by_cases h : anyUppercaseLetter v <;>
      simp [visit_AssignTarget, validate_snake_case_name, matchDefOrParamName,
        matchTargetName, h]
  · intro v
    by_cases h : anyUppercaseLetter v <;>
      simp [visit_For, validate_snake_case_name, matchDefOrParamName,
        matchTargetName, h]
  · intro v
    by_cases h : anyUppercaseLetter v <;>
      simp [visit_NamedExpr, validate_snake_case_name, matchDefOrParamName,
        matchTargetName, h]
  · intro v
    by_cases h : anyUppercaseLetter v <;>
      simp [visit_AnnAssign, validate_snake_case_name, matchDefOrParamName,
        matchTargetName, h]
  · intro elems
    exact ⟨rfl, rfl, rfl, rfl, rfl, rfl⟩

/-! ### Lemmas about `linenoExist`, `addComment` and `add_comments` -/

theorem linenoExist_map_locKey (lineno : Nat) (filepath body : String) :
    ∀ cs : List ReviewComment,
      (linenoExist lineno filepath body cs).1.map locKey = cs.map locKey := by
  intro cs
  induction cs with
  | nil => rfl
  | cons c cs ih =>
    unfold linenoExist
    by_cases h : c.line = lineno ∧ c.path = filepath
    · rw [if_pos h]; simp [locKey]
    · rw [if_neg h]; simpa [locKey] using ih

theorem linenoExist_found_iff (lineno : Nat) (filepath body : String) :
    ∀ cs : List ReviewComment,
      ((linenoExist lineno filepath body cs).2 = true
        ↔ ∃ c ∈ cs, c.line = lineno ∧ c.path = filepath) := by
  intro cs
  induction cs with
  | nil => simp [linenoExist]
  | cons c cs ih =>
    unfold linenoExist
    by_cases h : c.line = lineno ∧ c.path = filepath
    · rw [if_pos h]
      constructor
      · intro _
        exact ⟨c, List.mem_cons_self c cs, h⟩
      · intro _
        rfl
    · rw [if_neg h]
      show (linenoExist lineno filepath body cs).2 = true ↔ _
      rw [ih]
      constructor
      · rintro ⟨d, hd, hp⟩
        exact ⟨d, List.mem_cons_of_mem c hd, hp⟩
      · rintro ⟨d, hd, hp⟩
        rcases List.mem_cons.mp hd with rfl | hd'
        · exact absurd hp h
        · exact ⟨d, hd', hp⟩

theorem linenoExist_not_found_eq (lineno : Nat) (filepath body : String) :
    ∀ cs : List ReviewComment,
      (linenoExist lineno filepath body cs).2 = false →
      (linenoExist lineno filepath body cs).1 = cs := by
  intro cs
  induction cs with
  | nil => intro _; rfl
  | cons c cs ih =>
    unfold linenoExist
    by_cases h : c.line = lineno ∧ c.path = filepath
    · rw [if_pos h]; intro hfalse; cases hfalse
    · rw [if_neg h]
      intro hfalse
      simp only at hfalse ⊢
      rw [ih hfalse]

theorem linenoExist_sides (lineno : Nat) (filepath body : String) :
    ∀ cs : List ReviewComment, (∀ c ∈ cs, c.side = "RIGHT") →
      ∀ c' ∈ (linenoExist lineno filepath body cs).1, c'.side = "RIGHT" := by
  intro cs
  induction cs with
  | nil => intro _ c' hc'; cases hc'
  | cons c cs ih =>
    intro hside c' hc'
    unfold linenoExist at hc'
    by_cases h : c.line = lineno ∧ c.path = filepath
    · rw [if_pos h] at hc'
      rcases List.mem_cons.mp hc' with rfl | hmem
      · exact hside c (List.mem_cons_self c cs)
      · exact hside c' (List.mem_cons_of_mem c hmem)
    · rw [if_neg h] at hc'
      rcases List.mem_cons.mp hc' with rfl | hmem
      · exact hside c' (List.mem_cons_self c' cs)
      · exact ih (fun d hd => hside d (List.mem_cons_of_mem c hd)) c' hmem

theorem mergeUpdate_locKey (lineno : Nat) (filepath body : String)
    (c : ReviewComment) :
    locKey (mergeUpdate lineno filepath body c) = locKey c := by
  unfold mergeUpdate
  split <;> rfl

theorem mergeUpdate_path (lineno : Nat) (filepath body : String)
    (c : ReviewComment) :
    (mergeUpdate lineno filepath body c).path = c.path := by
  unfold mergeUpdate
  split <;> rfl

theorem mergeUpdate_line (lineno : Nat) (filepath body : String)
    (c : ReviewComment) :
    (mergeUpdate lineno filepath body c).line = c.line := by
  unfold mergeUpdate
  split <;> rfl

theorem mergeUpdate_side (lineno : Nat) (filepath body : String)
    (c : ReviewComment) :
    (mergeUpdate lineno filepath body c).side = c.side := by
  unfold mergeUpdate
  split <;> rfl

theorem linenoExist_eq_map_of_nodup (lineno : Nat) (filepath body : String) :
    ∀ cs : List ReviewComment, (cs.map locKey).Nodup →
      (linenoExist lineno filepath body cs).1
        = cs.map (mergeUpdate lineno filepath body) := by
  intro cs
  induction cs with
  | nil => intro _; rfl
  | cons c cs ih =>
    intro hnd
    unfold linenoExist
    by_cases h : c.line = lineno ∧ c.path = filepath
    · rw [if_pos h]
      simp only [List.map_cons]
      rw [mergeUpdate, if_pos h]
      refine List.cons.injEq _ _ _ _ ▸ ⟨rfl, ?_⟩
      have hnotin : locKey c ∉ cs.map locKey := (List.nodup_cons.mp (by simpa using hnd)).1
      have hnomatch : ∀ d ∈ cs, ¬(d.line = lineno ∧ d.path = filepath) := by
        intro d hd hcontra
        exact hnotin (by
          have hdk : locKey d = locKey c := by
            simp [locKey, h.2, hcontra.2, h.1, hcontra.1]
          exact hdk ▸ List.mem_map_of_mem locKey hd)
      have hmapid : cs.map (mergeUpdate lineno filepath body) = cs.map id := by
        apply List.map_congr_left
        intro d hd
        rw [mergeUpdate, if_neg (hnomatch d hd)]
        rfl
      rw [hmapid, List.map_id]
    · rw [if_neg h]
      simp only [List.map_cons]
      rw [mergeUpdate, if_neg h]
      have hnd' : (cs.map locKey).Nodup := (List.nodup_cons.mp (by simpa using hnd)).2
      simpa using ih hnd'

theorem addComment_violated_eq (filepath : String) (r : PullRequestReviewRecord)
    (report : LintReport) :
    (addComment filepath r report).violated_rules
      = if report.code ∈ r.violated_rules then r.violated_rules
        else r.violated_rules ++ [report.code] := by
  simp only [addComment]
  split <;> split <;> rfl

theorem addComment_comments_eq (filepath : String) (r : PullRequestReviewRecord)
    (report : LintReport) :
    (addComment filepath r report).comments
      = if (linenoExist report.line filepath report.message r.comments).2
        then (linenoExist report.line filepath report.message r.comments).1
        else (linenoExist report.line filepath report.message r.comments).1
          ++ [mkReviewComment report.message filepath report.line] := by
  simp only [addComment]
  split <;> split <;> rfl

theorem addComment_labels_eq (filepath : String) (r : PullRequestReviewRecord)
    (report : LintReport) :
    (addComment filepath r report).labels_to_add = r.labels_to_add
    ∧ (addComment filepath r report).labels_to_remove = r.labels_to_remove := by
  simp only [addComment]
  split <;> split <;> exact ⟨rfl, rfl⟩

theorem addComment_violated (filepath : String) (r : PullRequestReviewRecord)
    (report : LintReport) :
    ∀ x, x ∈ (addComment filepath r report).violated_rules
      ↔ x ∈ r.violated_rules ∨ x = report.code := by
  intro x
  rw [addComment_violated_eq]
  by_cases hc : report.code ∈ r.violated_rules
  · rw [if_pos hc]
    constructor
    · exact Or.inl
    · rintro (hx | rfl)
      · exact hx
      · exact hc
  · rw [if_neg hc]
    simp

theorem add_comments_violated (filepath : String) :
    ∀ (reports : List LintReport) (r : PullRequestReviewRecord) (x : String),
      x ∈ (add_comments r reports filepath).violated_rules
        ↔ x ∈ r.violated_rules ∨ x ∈ reports.map LintReport.code := by
  intro reports
  induction reports with
  | nil => intro r x; simp [add_comments]
  | cons rep reports ih =>
    intro r x
    have hstep : add_comments r (rep :: reports) filepath
        = add_comments (addComment filepath r rep) reports filepath := rfl
    rw [hstep, ih]
    rw [addComment_violated]
    simp [or_assoc]

theorem blankLineJoin_append (ms : List String) (x : String) (h : ms ≠ []) :
    blankLineJoin (ms ++ [x]) = blankLineJoin ms ++ "\n\n" ++ x := by
  induction ms with
  | nil => exact absurd rfl h
  | cons m ms ih =>
    cases ms with
    | nil => rfl
    | cons m' ms' =>
      show m ++ "\n\n" ++ blankLineJoin ((m' :: ms') ++ [x])
        = (m ++ "\n\n" ++ blankLineJoin (m' :: ms')) ++ "\n\n" ++ x
      rw [ih (by simp)]
      simp [String.append_assoc]

theorem msgsFor_append (p : String) (l : Nat) :
    ∀ h₁ h₂ : List (String × LintReport),
      msgsFor p l (h₁ ++ h₂) = msgsFor p l h₁ ++ msgsFor p l h₂ := by
  intro h₁ h₂
  induction h₁ with
  | nil => rfl
  | cons d h₁ ih =>
    show (if d.1 = p ∧ d.2.line = l then [d.2.message] else []) ++ msgsFor p l (h₁ ++ h₂)
      = ((if d.1 = p ∧ d.2.line = l then [d.2.message] else []) ++ msgsFor p l h₁)
        ++ msgsFor p l h₂
    rw [ih, List.append_assoc]

theorem msgsFor_single (p : String) (l : Nat) (d : String × LintReport) :
    msgsFor p l [d]
      = if d.1 = p ∧ d.2.line = l then [d.2.message] else [] := by
  show (if d.1 = p ∧ d.2.line = l then [d.2.message] else []) ++ [] = _
  rw [List.append_nil]

theorem add_comments_eq_foldl (r : PullRequestReviewRecord)
    (reports : List LintReport) (filepath : String) :
    add_comments r reports filepath
      = (reports.map (fun rep => (filepath, rep))).foldl
          (fun r d => addComment d.1 r d.2) r := by
  rw [add_comments, List.foldl_map]

theorem runComments_flatten :
    ∀ (calls : List (List LintReport × String)) (r : PullRequestReviewRecord),
      calls.foldl (fun r c => add_comments r c.1 c.2) r
        = (flattenCalls calls).foldl (fun r d => addComment d.1 r d.2) r := by
  intro calls
  induction calls with
  | nil => intro r; rfl
  | cons c calls ih =>
    intro r
    show calls.foldl (fun r c => add_comments r c.1 c.2) (add_comments r c.1 c.2)
      = (c.1.map (fun rep => (c.2, rep)) ++ flattenCalls calls).foldl
          (fun r d => addComment d.1 r d.2) r
    rw [List.foldl_append, ih, add_comments_eq_foldl]

theorem commentsInvariant_step (hist : List (String × LintReport))
    (r : PullRequestReviewRecord) (d : String × LintReport)
    (hinv : commentsInvariant hist r) :
    commentsInvariant (hist ++ [d]) (addComment d.1 r d.2) := by
  obtain ⟨hnd, hbody, hex⟩ := hinv
  by_cases hfound : (linenoExist d.2.line d.1 d.2.message r.comments).2 = true
  · -- a comment at the delivered location exists: merge into it
    have hexists := (linenoExist_found_iff d.2.line d.1 d.2.message r.comments).mp hfound
    have hcomments : (addComment d.1 r d.2).comments
        = r.comments.map (mergeUpdate d.2.line d.1 d.2.message) := by
      rw [addComment_comments_eq, if_pos hfound,
        linenoExist_eq_map_of_nodup _ _ _ _ hnd]
    have hloc : ((addComment d.1 r d.2).comments).map locKey = r.comments.map locKey := by
      rw [hcomments, List.map_map]
      apply List.map_congr_left
      intro c _
      exact mergeUpdate_locKey d.2.line d.1 d.2.message c
    refine ⟨by rw [hloc]; exact hnd, ?_, ?_⟩
    · intro c' hc'
      rw [hcomments] at hc'
      obtain ⟨c, hc, rfl⟩ := List.mem_map.mp hc'
      rw [mergeUpdate_path, mergeUpdate_line]
      obtain ⟨hne, hb⟩ := hbody c hc
      by_cases hmatch : c.line = d.2.line ∧ c.path = d.1
      · have hmsgs : msgsFor c.path c.line (hist ++ [d])
            = msgsFor c.path c.line hist ++ [d.2.message] := by
          rw [msgsFor_append, msgsFor_single, if_pos ⟨hmatch.2.symm, hmatch.1.symm⟩]
        constructor
        · rw [hmsgs]; simp
        · rw [hmsgs, blankLineJoin_append _ _ hne, ← hb]
          rw [mergeUpdate, if_pos hmatch]
      · have hmsgs : msgsFor c.path c.line (hist ++ [d]) = msgsFor c.path c.line hist := by
          rw [msgsFor_append, msgsFor_single,
            if_neg (fun hcontra => hmatch ⟨hcontra.2.symm, hcontra.1.symm⟩),
            List.append_nil]
        rw [hmsgs, mergeUpdate, if_neg hmatch]
        exact ⟨hne, hb⟩
    · intro p l hne
      rw [msgsFor_append] at hne
      by_cases hold : msgsFor p l hist = []
      · rw [hold, List.nil_append, msgsFor_single] at hne
        have hcond : d.1 = p ∧ d.2.line = l := by
          by_contra hcontra
          rw [if_neg hcontra] at hne
          exact hne rfl
        obtain ⟨c₀, hc₀, hmatch₀⟩ := hexists
        refine ⟨mergeUpdate d.2.line d.1 d.2.message c₀, ?_, ?_, ?_⟩
        · rw [hcomments]; exact List.mem_map_of_mem _ hc₀
        · rw [mergeUpdate_path, hmatch₀.2, hcond.1]
        · rw [mergeUpdate_line, hmatch₀.1, hcond.2]
      · obtain ⟨c, hc, hcp, hcl⟩ := hex p l hold
        refine ⟨mergeUpdate d.2.line d.1 d.2.message c, ?_, ?_, ?_⟩
        · rw [hcomments]; exact List.mem_map_of_mem _ hc
        · rw [mergeUpdate_path]; exact hcp
        · rw [mergeUpdate_line]; exact hcl
  · -- no comment at the delivered location: a fresh comment is appended
    have hb : (linenoExist d.2.line d.1 d.2.message r.comments).2 = false := by
      cases hsplit : (linenoExist d.2.line d.1 d.2.message r.comments).2
      · rfl
      · exact absurd hsplit hfound
    have hcomments : (addComment d.1 r d.2).comments
        = r.comments ++ [mkReviewComment d.2.message d.1 d.2.line] := by
      rw [addComment_comments_eq, if_neg hfound,
        linenoExist_not_found_eq _ _ _ _ hb]
    have hnone : ∀ c ∈ r.comments, ¬(c.line = d.2.line ∧ c.path = d.1) := by
      intro c hc hcontra
      exact hfound ((linenoExist_found_iff d.2.line d.1 d.2.message r.comments).mpr
        ⟨c, hc, hcontra⟩)
    have hnewloc : (d.1, d.2.line) ∉ r.comments.map locKey := by
      intro hmem
      obtain ⟨c, hc, hck⟩ := List.mem_map.mp hmem
      have hcp : c.path = d.1 := congrArg Prod.fst hck
      have hcl : c.line = d.2.line := congrArg Prod.snd hck
      exact hnone c hc ⟨hcl, hcp⟩
    have hemptyold : msgsFor d.1 d.2.line hist = [] := by
      by_contra hcontra
      obtain ⟨c, hc, hcp, hcl⟩ := hex d.1 d.2.line hcontra
      exact hnone c hc ⟨hcl, hcp⟩
    refine ⟨?_, ?_, ?_⟩
    · rw [hcomments, List.map_append]
      rw [List.nodup_append]
      refine ⟨hnd, List.nodup_singleton _, ?_⟩
      intro k hk hk'
      rcases List.mem_singleton.mp hk' with rfl
      exact hnewloc hk
    · intro c' hc'
      rw [hcomments] at hc'
      rcases List.mem_append.mp hc' with hcold | hcnew
      · obtain ⟨hne, hbdy⟩ := hbody c' hcold
        have hmsgs : msgsFor c'.path c'.line (hist ++ [d])
            = msgsFor c'.path c'.line hist := by
          rw [msgsFor_append, msgsFor_single,
            if_neg (fun hcontra => hnone c' hcold ⟨hcontra.2.symm, hcontra.1.symm⟩),
            List.append_nil]
        rw [hmsgs]
        exact ⟨hne, hbdy⟩
      · rcases List.mem_singleton.mp hcnew with rfl
        have hmsgs : msgsFor d.1 d.2.line (hist ++ [d]) = [d.2.message] := by
          rw [msgsFor_append, msgsFor_single, if_pos ⟨rfl, rfl⟩, hemptyold,
            List.nil_append]
        show msgsFor d.1 d.2.line (hist ++ [d]) ≠ []
          ∧ (mkReviewComment d.2.message d.1 d.2.line).body
            = blankLineJoin (msgsFor d.1 d.2.line (hist ++ [d]))
        rw [hmsgs]
        exact ⟨by simp, rfl⟩
    · intro p l hne
      rw [msgsFor_append] at hne
      by_cases hold : msgsFor p l hist = []
      · rw [hold, List.nil_append, msgsFor_single] at hne
        have hcond : d.1 = p ∧ d.2.line = l := by
          by_contra hcontra
          rw [if_neg hcontra] at hne
          exact hne rfl
        refine ⟨mkReviewComment d.2.message d.1 d.2.line, ?_, hcond.1, hcond.2⟩
        rw [hcomments]
        exact List.mem_append_right _ (List.mem_singleton.mpr rfl)
      · obtain ⟨c, hc, hcp, hcl⟩ := hex p l hold
        exact ⟨c, by rw [hcomments]; exact List.mem_append_left _ hc, hcp, hcl⟩

theorem commentsInvariant_fold :
    ∀ (ds : List (String × LintReport)) (hist : List (String × LintReport))
      (r : PullRequestReviewRecord), commentsInvariant hist r →
      commentsInvariant (hist ++ ds)
        (ds.foldl (fun r d => addComment d.1 r d.2) r) := by
  intro ds
  induction ds with
  | nil => intro hist r h; simpa using h
  | cons d ds ih =>
    intro hist r h
    have hstep := commentsInvariant_step hist r d h
    have := ih (hist ++ [d]) (addComment d.1 r d.2) hstep
    simpa [List.append_assoc] using this

theorem commentsInvariant_empty : commentsInvariant [] emptyRecord := by
  refine ⟨List.nodup_nil, ?_, ?_⟩
  · intro c hc
    cases hc
  · intro p l hne
    exact absurd rfl hne

theorem commentsInvariant_runComments (calls : List (List LintReport × String)) :
    commentsInvariant (flattenCalls calls) (runComments calls) := by
  rw [runComments, runComments_flatten]
  simpa using commentsInvariant_fold (flattenCalls calls) [] emptyRecord
    commentsInvariant_empty

theorem countP_le_one_of_nodup_map {α β : Type} [DecidableEq β] (f : α → β) (k : β) :
    ∀ l : List α, (l.map f).Nodup → l.countP (fun x => decide (f x = k)) ≤ 1 := by
  intro l
  induction l with
  | nil => intro _; simp
  | cons a l ih =>
    intro hnd
    rw [List.map_cons] at hnd
    have h1 : f a ∉ l.map f := (List.nodup_cons.mp hnd).1
    have h2 : (l.map f).Nodup := (List.nodup_cons.mp hnd).2
    rw [List.countP_cons]
    by_cases hk : f a = k
    · have hzero : l.countP (fun x => decide (f x = k)) = 0 := by
        rw [List.countP_eq_zero]
        intro x hx
        simp only [decide_eq_true_eq]
        intro hfx
        refine h1 ?_
        rw [hk, ← hfx]
        exact List.mem_map_of_mem f hx
      simp [hzero, hk]
    · simp only [decide_eq_true_eq, if_neg hk]
      simpa using ih h2

/-- Claim C1: after any sequence of `add_comments` calls on a fresh record,
each (filepath, line) location owns at most one comment, that comment's
body is the blank-line-joined concatenation of all messages delivered for
the location in call order, and a comment exists exactly when some message
was delivered there. -/
theorem add_comments_merge_by_location (calls : List (List LintReport × String))
    (p : String) (l : Nat) :
    (runComments calls).comments.countP
        (fun c => decide (locKey c = (p, l))) ≤ 1
    ∧ (∀ c ∈ (runComments calls).comments, c.path = p → c.line = l →
        c.body = blankLineJoin (msgsFor p l (flattenCalls calls)))
    ∧ (msgsFor p l (flattenCalls calls) ≠ [] →
        ∃ c ∈ (runComments calls).comments, c.path = p ∧ c.line = l) := by
  obtain ⟨hnd, hbody, hex⟩ := commentsInvariant_runComments calls
  refine ⟨countP_le_one_of_nodup_map locKey (p, l) _ hnd, ?_, hex p l⟩
  intro c hc hcp hcl
  have := (hbody c hc).2
  rw [hcp, hcl] at this
  exact this

/-- Claim C3: after any sequence of `add_comments` calls on a fresh record,
the violated-rule set is exactly the union of `report.code` over every
report in every passed collection — merged reports included, since the code
is recorded before the merge check. -/
theorem violated_rules_union (calls : List (List LintReport × String)) (x : String) :
    x ∈ (runComments calls).violated_rules
      ↔ x ∈ (flattenCalls calls).map (fun d => d.2.code) := by
  have main : ∀ (calls : List (List LintReport × String)) (r : PullRequestReviewRecord),
      ∀ y, y ∈ (calls.foldl (fun r c => add_comments r c.1 c.2) r).violated_rules
        ↔ y ∈ r.violated_rules ∨ y ∈ (flattenCalls calls).map (fun d => d.2.code) := by
    intro calls
    induction calls with
    | nil => intro r y; simp [flattenCalls]
    | cons c calls ih =>
      intro r y
      have hstep : (c :: calls).foldl (fun r c => add_comments r c.1 c.2) r
          = calls.foldl (fun r c => add_comments r c.1 c.2) (add_comments r c.1 c.2) := rfl
      rw [hstep, ih, add_comments_violated]
      simp [flattenCalls, or_assoc]
  have h := main calls emptyRecord x
  simpa [runComments, emptyRecord] using h

/-! ### Lemmas for the serialization claim: `firstSeen` order and sides -/

theorem firstSeen_filter_middle {α : Type} [DecidableEq α] (x : α) :
    ∀ (A Y : List α),
      (firstSeen (A ++ x :: Y)).filter (fun y => decide (y ≠ x))
        = (firstSeen (A ++ Y)).filter (fun y => decide (y ≠ x)) := by
  intro A
  induction A with
  | nil =>
    intro Y
    show ((x :: (firstSeen Y).filter (fun y => decide (y ≠ x))).filter
        (fun y => decide (y ≠ x)))
      = (firstSeen Y).filter (fun y => decide (y ≠ x))
    rw [List.filter_cons]
    simp [List.filter_filter]
  | cons a A ih =>
    intro Y
    show ((a :: (firstSeen (A ++ x :: Y)).filter (fun y => decide (y ≠ a))).filter
        (fun y => decide (y ≠ x)))
      = ((a :: (firstSeen (A ++ Y)).filter (fun y => decide (y ≠ a))).filter
        (fun y => decide (y ≠ x)))
    have hcomm : ∀ (L : List α),
        ((L.filter (fun y => decide (y ≠ a))).filter (fun y => decide (y ≠ x)))
          = ((L.filter (fun y => decide (y ≠ x))).filter (fun y => decide (y ≠ a))) := by
      intro L
      rw [List.filter_filter, List.filter_filter]
      exact List.filter_congr (fun y _ => Bool.and_comm _ _)
    rw [List.filter_cons, List.filter_cons, hcomm, ih Y, ← hcomm]

theorem firstSeen_append_cons_of_mem {α : Type} [DecidableEq α] :
    ∀ (A Y : List α) (x : α), x ∈ A →
      firstSeen (A ++ x :: Y) = firstSeen (A ++ Y) := by
  intro A
  induction A with
  | nil => intro Y x hx; cases hx
  | cons a A ih =>
    intro Y x hx
    show a :: (firstSeen (A ++ x :: Y)).filter (fun y => decide (y ≠ a))
      = a :: (firstSeen (A ++ Y)).filter (fun y => decide (y ≠ a))
    rcases List.mem_cons.mp hx with rfl | hx'
    · rw [firstSeen_filter_middle]
    · rw [ih Y x hx']

theorem addComment_mapLoc (filepath : String) (r : PullRequestReviewRecord)
    (report : LintReport) :
    (addComment filepath r report).comments.map locKey
      = r.comments.map locKey
        ++ (if (filepath, report.line) ∈ r.comments.map locKey then []
            else [(filepath, report.line)]) := by
  by_cases hfound : (linenoExist report.line filepath report.message r.comments).2 = true
  · obtain ⟨c, hc, h1, h2⟩ :=
      (linenoExist_found_iff report.line filepath report.message r.comments).mp hfound
    have hmem : (filepath, report.line) ∈ r.comments.map locKey :=
      List.mem_map.mpr ⟨c, hc, by simp [locKey, h1, h2]⟩
    rw [if_pos hmem, List.append_nil, addComment_comments_eq, if_pos hfound]
    exact linenoExist_map_locKey report.line filepath report.message r.comments
  · have hb : (linenoExist report.line filepath report.message r.comments).2 = false := by
      cases hsplit : (linenoExist report.line filepath report.message r.comments).2
      · rfl
      · exact absurd hsplit hfound
    have hnotmem : (filepath, report.line) ∉ r.comments.map locKey := by
      intro hmem
      obtain ⟨c, hc, hck⟩ := List.mem_map.mp hmem
      exact hfound
        ((linenoExist_found_iff report.line filepath report.message r.comments).mpr
          ⟨c, hc, congrArg Prod.snd hck, congrArg Prod.fst hck⟩)
    rw [if_neg hnotmem, addComment_comments_eq, if_neg hfound,
      linenoExist_not_found_eq _ _ _ _ hb, List.map_append]
    rfl

theorem add_comments_firstSeen_locs (filepath : String) :
    ∀ (reports : List LintReport) (r : PullRequestReviewRecord)
      (Z : List (String × Nat)),
      firstSeen ((add_comments r reports filepath).comments.map locKey ++ Z)
        = firstSeen (r.comments.map locKey
            ++ reports.map (fun rep => (filepath, rep.line)) ++ Z) := by
  intro reports
  induction reports with
  | nil => intro r Z; simp [add_comments]
  | cons rep reports ih =>
    intro r Z
    have hstep : add_comments r (rep :: reports) filepath
        = add_comments (addComment filepath r rep) reports filepath := rfl
    rw [hstep, ih, addComment_mapLoc]
    by_cases hmem : (filepath, rep.line) ∈ r.comments.map locKey
    · rw [if_pos hmem, List.append_nil]
      simp only [List.map_cons, List.append_assoc, List.cons_append]
      rw [firstSeen_append_cons_of_mem _ _ _ hmem]
    · rw [if_neg hmem]
      simp [List.append_assoc]

theorem runOps_firstSeen :
    ∀ (ops : List RecordOp) (r : PullRequestReviewRecord),
      firstSeen ((ops.foldl applyOp r).comments.map locKey)
        = firstSeen (r.comments.map locKey ++ deliveredLocs ops) := by
  intro ops
  induction ops with
  | nil => intro r; simp [deliveredLocs]
  | cons op ops ih =>
    intro r
    have hstep : (op :: ops).foldl applyOp r = ops.foldl applyOp (applyOp r op) := rfl
    rw [hstep, ih]
    cases op with
    | reportsOp reports filepath =>
      show firstSeen ((add_comments r reports filepath).comments.map locKey
          ++ deliveredLocs ops)
        = firstSeen (r.comments.map locKey
            ++ (reports.map (fun rep => (filepath, rep.line)) ++ deliveredLocs ops))
      rw [add_comments_firstSeen_locs, List.append_assoc]
    | errorOp message filepath lineno =>
      show firstSeen ((add_error r message filepath lineno).comments.map locKey
          ++ deliveredLocs ops)
        = firstSeen (r.comments.map locKey
            ++ ([(filepath, lineno.getD 1)] ++ deliveredLocs ops))
      rw [add_error]
      simp [List.append_assoc, locKey, mkReviewComment]

theorem addComment_sides (filepath : String) (r : PullRequestReviewRecord)
    (report : LintReport) (h : ∀ c ∈ r.comments, c.side = "RIGHT") :
    ∀ c' ∈ (addComment filepath r report).comments, c'.side = "RIGHT" := by
  intro c' hc'
  rw [addComment_comments_eq] at hc'
  by_cases hfound : (linenoExist report.line filepath report.message r.comments).2 = true
  · rw [if_pos hfound] at hc'
    exact linenoExist_sides _ _ _ _ h c' hc'
  · rw [if_neg hfound] at hc'
    rcases List.mem_append.mp hc' with h1 | h2
    · exact linenoExist_sides _ _ _ _ h c' h1
    · rcases List.mem_singleton.mp h2 with rfl
      rfl

theorem add_comments_sides (filepath : String) :
    ∀ (reports : List LintReport) (r : PullRequestReviewRecord),
      (∀ c ∈ r.comments, c.side = "RIGHT") →
      ∀ c' ∈ (add_comments r reports filepath).comments, c'.side = "RIGHT" := by
  intro reports
  induction reports with
  | nil => intro r h c' hc'; exact h c' hc'
  | cons rep reports ih =>
    intro r h c' hc'
    exact ih (addComment filepath r rep) (addComment_sides filepath r rep h) c' hc'

theorem runOps_sides :
    ∀ (ops : List RecordOp) (r : PullRequestReviewRecord),
      (∀ c ∈ r.comments, c.side = "RIGHT") →
      ∀ c' ∈ (ops.foldl applyOp r).comments, c'.side = "RIGHT" := by
  intro ops
  induction ops with
  | nil => intro r h c' hc'; exact h c' hc'
  | cons op ops ih =>
    intro r h c' hc'
    refine ih (applyOp r op) ?_ c' hc'
    cases op with
    | reportsOp reports filepath => exact add_comments_sides filepath reports r h
    | errorOp message filepath lineno =>
      intro c hc
      rcases List.mem_append.mp hc with h1 | h2
      · exact h c h1
      · rcases List.mem_singleton.mp h2 with rfl
        rfl

/-- Claim C7: `collect_comments` yields one serialized record per
accumulated comment, the comments standing in the insertion order of
first-seen (path, line) locations of the delivered reports and errors, and
every record carries exactly the four keys body, path, line, side in that
order with `side = "RIGHT"` — entries created by `add_error` included. -/
theorem collect_comments_shape_order (ops : List RecordOp) :
    (∀ d ∈ collect_comments (runOps ops),
        d.map Prod.fst = ["body", "path", "line", "side"]
        ∧ ("side", JValue.str "RIGHT") ∈ d)
    ∧ (collect_comments (runOps ops)).length = (runOps ops).comments.length
    ∧ firstSeen ((runOps ops).comments.map locKey) = firstSeen (deliveredLocs ops) := by
  refine ⟨?_, by simp [collect_comments], ?_⟩
  · intro d hd
    obtain ⟨c, hc, rfl⟩ := List.mem_map.mp hd
    have hside : c.side = "RIGHT" :=
      runOps_sides ops emptyRecord (by intro c hc; cases hc) c hc
    exact ⟨rfl, by simp [asdict, hside]⟩
  · have h := runOps_firstSeen ops emptyRecord
    simpa [emptyRecord] using h

/-- Claim C2, counterexample: on a record already holding a comment at
(`"sol.py"`, 5), `add_error` at the same location does not merge — it
appends a second comment, leaving the first body untouched, so two comments
exist at one location. -/
theorem add_error_no_merge_counterexample :
    ((add_error (add_comments emptyRecord [⟨"RequireDoctestRule", "msg one", 5⟩] "sol.py")
        "boom" "sol.py" (some 5)).comments.countP
      (fun c => decide (c.path = "sol.py" ∧ c.line = 5)) = 2)
    ∧ ((add_error (add_comments emptyRecord [⟨"RequireDoctestRule", "msg one", 5⟩] "sol.py")
        "boom" "sol.py" (some 5)).comments.map ReviewComment.body
      = ["msg one", errorBody "boom" "sol.py"]) := by
  exact ⟨by decide, rfl⟩

/-- Claim C2, amended: `add_error` never goes through the location-merge
logic — it always appends one fresh comment with the templated error body
at (`filepath`, `lineno` defaulting to 1), leaving every existing comment
unchanged, even when a comment already exists at that location (whose count
therefore grows by one). -/
theorem add_error_always_appends (r : PullRequestReviewRecord)
    (message filepath : String) (lineno : Option Nat) :
    (add_error r message filepath lineno).comments
      = r.comments ++ [mkReviewComment (errorBody message filepath) filepath (lineno.getD 1)]
    ∧ (add_error r message filepath lineno).comments.countP
        (fun c => decide (c.path = filepath ∧ c.line = lineno.getD 1))
      = r.comments.countP (fun c => decide (c.path = filepath ∧ c.line = lineno.getD 1)) + 1 := by
  constructor
  · rfl
  · simp [add_error, List.countP_append, mkReviewComment]

end AlgorithmsKeeper
